import Mathlib

/-!
Verification of the symbolic rewrite engine in `src/bin/no1.rs` (repository
`sligocki/bbc`): the compressed-tape data model, the ordered rule table of
`Configuration::run`, and the textual codec (`impl fmt::Display` /
`raw_parse` / `parse` / `FromStr`).

Modelling conventions, used throughout:

* Rust `Vec<Item>` tapes are modelled as Lean `List Item` read from the
  Vec's END: the list head is the Vec's last element, i.e. the
  head-adjacent item.  Under this convention `Vec::push` is `List.cons`,
  `Vec::pop` is `List.tail`, `last_mut` is the list head,
  `truncate(len - k)` is `List.drop k`, `ends_with s` is matching on the
  first `s.length` list elements (in reversed order), `extend_from_slice e`
  is `e.reverse ++ ·`, and `Vec::reverse` is `List.reverse`.
* Machine integers (`usize`, `u16`, `u8`) are modelled as `Nat`.
  `checked_add(..).unwrap()` is modelled as plain `Nat` addition: overflow
  is a fatal contract violation which the rule set is defined not to
  produce (spec §4.1), and no claim involves values near `2^64`.
  The `u8` increment `*c += 1` in the counter rule is modelled with its
  release-mode wrap-around, `(c + 1) % 256`.  The decrements `*exp -= 1`
  in `pop_x_truncate!` are `Nat` truncated subtraction; every value they
  are applied to in the claims is positive.
* The `println!` trace emitted every `2^print_mod` steps is a pure
  observational side effect (spec §4.2) and is not modelled; `run` below
  therefore takes only the absolute step limit.
-/

namespace BBC

/-- Scan direction (`bbc::machine::Direction` as used by `no1.rs`). -/
inductive Direction where
  | Left
  | Right
deriving DecidableEq, Repr

/-- Result codes (`enum Err` in `no1.rs`). -/
inductive Err where
  | Halt
  | StepLimit
  | Interesting
  | UnknownTransition
  | Unreachable
deriving DecidableEq, Repr

/-- Tape alphabet (`enum Item` in `no1.rs`).  `C` is the counter (`u8`),
`X` a run-length block (`usize` exponent), `L` a reduced code (`u16`),
`E` a detected periodic block (`u8` id, `usize` exponent), `Unreachable`
the sentinel `!`. -/
inductive Item where
  | D
  | P
  | C (c : Nat)
  | X (exp : Nat)
  | L (r : Nat)
  | E (block : Nat) (exp : Nat)
  | Unreachable
deriving DecidableEq, Repr

/-- `struct Configuration`: two tapes, scan direction, step counter.
Each tape's list head is the head-adjacent item (see the module comment). -/
structure Configuration where
  ltape : List Item
  rtape : List Item
  dir : Direction
  sim_step : Nat
deriving DecidableEq, Repr

/-- `Configuration::new()`: `C1 < P` at step 0 — except that `new` starts
with `dir = Right` (`A>`), ltape `[C(1)]`, rtape `[P]`. -/
def Configuration.new : Configuration :=
  { ltape := [.C 1], rtape := [.P], dir := .Right, sim_step := 0 }

/-- `push_or_merge_x`: push `X(new_exp)`, merging with a trailing run. -/
def push_or_merge_x (tape : List Item) (new_exp : Nat) : List Item :=
  match tape with
  | .X exp :: t => .X (exp + new_exp) :: t
  | _ => .X new_exp :: tape

/-- The fixed literal expansion of block `c` pushed by the `c^n <` rule
(`let e = [C(1), D, X(72141), ...]` in the source), in Vec order. -/
def block2Expansion : List Item :=
  [.C 1, .D, .X 72141, .C 1, .D, .X 3075, .C 1, .D, .X 1537,
   .C 1, .D, .X 299, .C 1, .D, .X 30825]

/-- The arms of the `match` inside `Configuration::run` whose direction
pattern is `Left`, in source order.  Every arm of the source `match`
constrains the direction, so the ordered table splits without overlap
into a `Left` table and a `Right` table (`stepRight`); `applyRule`
dispatches on the direction.  The step counter is not modified here (the
source increments `sim_step` after the `match`, which `run` performs).
Failure arms return their error before any mutation, as in the source. -/
def stepLeft (conf : Configuration) : Except Err Configuration :=
  match conf.ltape, conf.rtape with
  -- `end < 3x` -> `1 > DP`
  | [], .C 3 :: .X exp :: r =>
      .ok { conf with
        ltape := [.C 1],
        rtape := .D :: .P :: (if exp - 1 = 0 then r else .X (exp - 1) :: r),
        dir := .Right }
  -- `(x | D | P | 3) <` -> `< (x | D | P | 3)`  (pass-through)
  | .X exp :: l, _ =>
      .ok { conf with ltape := l, rtape := .X exp :: conf.rtape }
  | .D :: l, _ =>
      .ok { conf with ltape := l, rtape := .D :: conf.rtape }
  | .P :: l, _ =>
      .ok { conf with ltape := l, rtape := .P :: conf.rtape }
  | .C 3 :: l, _ =>
      .ok { conf with ltape := l, rtape := .C 3 :: conf.rtape }
  -- `0 <` -> `1x >` | `1 <` -> `2 >` | `2 <` -> `3x >`  (c ≠ 3 by order)
  | .C c :: l, _ =>
      .ok { conf with
        ltape := if (c + 1) % 256 ≠ 2
          then .X 1 :: .C ((c + 1) % 256) :: l
          else .C ((c + 1) % 256) :: l,
        dir := .Right }
  -- `L(2332) <` -> `L(2301) x >`
  | .L 2332 :: l, _ =>
      .ok { conf with ltape := .X 1 :: .L 2301 :: l, dir := .Right }
  -- `L(2301) <` -> `L(252) >`
  | .L 2301 :: l, _ =>
      .ok { conf with ltape := .L 252 :: l, dir := .Right }
  -- `L(252) <` -> `PDx >`
  | .L 252 :: l, _ =>
      .ok { conf with ltape := .X 1 :: .D :: .P :: l, dir := .Right }
  -- `L(432) <` -> `L(401) x >`
  | .L 432 :: l, _ =>
      .ok { conf with ltape := .X 1 :: .L 401 :: l, dir := .Right }
  -- `L(401) <` -> `L(62) >`
  | .L 401 :: l, _ =>
      .ok { conf with ltape := .L 62 :: l, dir := .Right }
  -- `L(62) <` -> `L(31) x >`
  | .L 62 :: l, _ =>
      .ok { conf with ltape := .X 1 :: .L 31 :: l, dir := .Right }
  -- `x L(31) <` -> `P1D >`
  | .L 31 :: .X exp :: l, _ =>
      .ok { conf with
        ltape := .D :: .C 1 :: .P :: (if exp - 1 = 0 then l else .X (exp - 1) :: l),
        dir := .Right }
  -- `b <` -> `< b`
  | .E 1 me :: l, _ =>
      .ok { conf with ltape := l, rtape := .E 1 me :: conf.rtape }
  -- `c^n <` -> `c^(n-1) expanded-c <`
  | .E 2 e :: l, _ =>
      .ok { conf with
        ltape := block2Expansion.reverse ++ (if e - 1 = 0 then l else .E 2 (e - 1) :: l) }
  -- sentinel touched
  | .Unreachable :: _, _ => .error .Unreachable
  -- fallback
  | _, _ => .error .UnknownTransition

/-- The arms of the `match` inside `Configuration::run` whose direction
pattern is `Right`.  For tractable case analysis the table is arranged as
a dispatch on the right tape with nested dispatches on the left tape for
the `rtape = []` and `rtape` head `C(3)` groups; this is semantically
identical to the source's flat ordered table because every pair of arms
whose right-tape patterns overlap keeps its source relative order
(`> D33` before `> D3` before `> D`; the `P`-headed arms by their deeper
items; specific arms before the generic `> x`), and the remaining arms
have mutually exclusive right-tape patterns. -/
def stepRight (conf : Configuration) : Except Err Configuration :=
  match conf.rtape with
  | [] =>
    match conf.ltape with
    -- `x > end` -> `< 3xP`
    | .X exp :: l =>
        .ok { conf with
          ltape := if exp - 1 = 0 then l else .X (exp - 1) :: l,
          rtape := [.C 3, .X 1, .P],
          dir := .Left }
    -- `D > end` -> `< x`
    | .D :: l =>
        .ok { conf with ltape := l, rtape := [.X 1], dir := .Left }
    | _ => .error .UnknownTransition
  -- `> D33` -> `P0 >`
  | .D :: .C 3 :: .C 3 :: r =>
      .ok { conf with ltape := .C 0 :: .P :: conf.ltape, rtape := r }
  -- `> D3` -> `xP >`
  | .D :: .C 3 :: r =>
      .ok { conf with ltape := .P :: push_or_merge_x conf.ltape 1, rtape := r }
  | .C 3 :: r =>
    match conf.ltape with
    -- `x > 3` -> `0 >`, with the `test_a` block-0 compaction guard
    | .X exp :: l =>
        let lt1 := if exp - 1 = 0 then l else .X (exp - 1) :: l
        let lt2 :=
          if exp = 10345 then
            match lt1 with
            | .X 10344 :: .D :: .X 7640 :: .C 2 :: l4 =>
                match l4 with
                | .E 0 e :: l5 => .E 0 (e + 1) :: l5
                | _ => .E 0 1 :: l4
            | _ => lt1
          else lt1
        .ok { conf with ltape := .C 0 :: lt2, rtape := r }
    -- `0 > 3` -> `L(2332) >`
    | .C 0 :: l =>
        .ok { conf with ltape := .L 2332 :: l, rtape := r }
    -- `2 > 3` -> `L(432) >`
    | .C 2 :: l =>
        .ok { conf with ltape := .L 432 :: l, rtape := r }
    | _ => .error .UnknownTransition
  -- `> PD3x` -> `L(2301) D > P`
  | .P :: .D :: .C 3 :: .X exp :: r =>
      .ok { conf with
        ltape := .D :: .L 2301 :: conf.ltape,
        rtape := .P :: (if exp - 1 = 0 then r else .X (exp - 1) :: r) }
  -- `> PDDx` -> `21D >`
  | .P :: .D :: .D :: .X exp :: r =>
      .ok { conf with
        ltape := .D :: .C 1 :: .C 2 :: conf.ltape,
        rtape := if exp - 1 = 0 then r else .X (exp - 1) :: r }
  -- `> P x^n` -> `x^n > P`
  | .P :: .X exp :: r =>
      .ok { conf with ltape := push_or_merge_x conf.ltape exp, rtape := .P :: r }
  -- `> PDP` -> `1D >`
  | .P :: .D :: .P :: r =>
      .ok { conf with ltape := .D :: .C 1 :: conf.ltape, rtape := r }
  -- `> PDx` -> `1D > P`
  | .P :: .D :: .X exp :: r =>
      .ok { conf with
        ltape := .D :: .C 1 :: conf.ltape,
        rtape := .P :: (if exp - 1 = 0 then r else .X (exp - 1) :: r) }
  -- `> P3x` -> `< PDP`
  | .P :: .C 3 :: .X exp :: r =>
      .ok { conf with
        rtape := .P :: .D :: .P :: (if exp - 1 = 0 then r else .X (exp - 1) :: r),
        dir := .Left }
  -- `> P end` -> `< P`
  | [.P] =>
      .ok { conf with dir := .Left }
  -- `> PP` -> `x >`
  | .P :: .P :: r =>
      .ok { conf with ltape := push_or_merge_x conf.ltape 1, rtape := r }
  -- `> D` -> `D >`
  | .D :: r =>
      .ok { conf with ltape := .D :: conf.ltape, rtape := r }
  -- `> x` -> `x >`, with the `test_b` block-1 compaction guard
  | .X exp :: r =>
      let lt1 := push_or_merge_x conf.ltape exp
      let lt2 :=
        if exp = 30826 then
          match lt1 with
          | .X 30826 :: .D :: .X 300 :: .D :: .X 1538 :: .D :: .X 3076 ::
              .D :: .X 72142 :: .D :: l10 =>
              match l10 with
              | .E 1 e :: l' => .E 1 (e + 1) :: l'
              | _ => .E 1 1 :: l10
          | _ => lt1
        else lt1
      .ok { conf with ltape := lt2, rtape := r }
  -- `> b` -> `b >`
  | .E 1 me :: r =>
      let lt := match conf.ltape with
        | .E 1 e :: l => .E 1 (e + me) :: l
        | _ => .E 1 me :: conf.ltape
      .ok { conf with ltape := lt, rtape := r }
  -- sentinel touched
  | .Unreachable :: _ => .error .Unreachable
  -- `> P b` -> `c > P`
  | .P :: .E 1 me :: r =>
      .ok { conf with ltape := .E 2 me :: conf.ltape, rtape := r }
  -- fallback
  | _ => .error .UnknownTransition

/-- One iteration of the ordered rule table of `Configuration::run`:
dispatch on the direction, then try the arms of that direction in source
order. -/
def applyRule (conf : Configuration) : Except Err Configuration :=
  match conf.dir with
  | .Left => stepLeft conf
  | .Right => stepRight conf

/-- `Configuration::run`: loop `while sim_step < limit`, applying one rule
per iteration and incrementing `sim_step`; a failing arm returns its error
with the configuration as of the last applied step, and budget exhaustion
returns `Err::StepLimit`.  Returns the final configuration together with
the stop code. -/
def run (conf : Configuration) (limit : Nat) : Configuration × Err :=
  if conf.sim_step < limit then
    match applyRule conf with
    | .error e => (conf, e)
    | .ok c => run { c with sim_step := conf.sim_step + 1 } limit
  else (conf, .StepLimit)
termination_by limit - conf.sim_step
decreasing_by simp; omega

/-- The number of rules `run conf limit` successfully applies. -/
def runSteps (conf : Configuration) (limit : Nat) : Nat :=
  if conf.sim_step < limit then
    match applyRule conf with
    | .error _ => 0
    | .ok c => runSteps { c with sim_step := conf.sim_step + 1 } limit + 1
  else 0
termination_by limit - conf.sim_step
decreasing_by simp; omega

/-- The state after `n` successfully applied engine steps (each step is one
rule application followed by the `sim_step` increment), or `none` if some
rule fails before that. -/
def stepN (conf : Configuration) : Nat → Option Configuration
  | 0 => some conf
  | n + 1 =>
    match applyRule conf with
    | .error _ => none
    | .ok c => stepN { c with sim_step := conf.sim_step + 1 } n

end BBC

namespace BBC

/-- Helper: the rule table itself never produces the `StepLimit` code; its
only failure codes are `Unreachable` (sentinel arms) and
`UnknownTransition` (fallback arm). -/
theorem applyRule_error_code {conf : Configuration} {e : Err}
    (h : applyRule conf = .error e) :
    e = .UnknownTransition ∨ e = .Unreachable := by
  unfold applyRule at h
  split at h
  · unfold stepLeft at h
    split at h <;>
      first
        | exact Except.noConfusion h
        | (injection h with h; subst h; decide)
  · unfold stepRight at h
    split at h <;>
      first
        | exact Except.noConfusion h
        | (injection h with h; subst h; decide)
        | (split at h <;>
            first
              | exact Except.noConfusion h
              | (injection h with h; subst h; decide))

end BBC

namespace BBC

/-- C1: after `Configuration::run` returns, the step counter equals its
initial value plus the number of rules actually applied in that call; the
call returns `Err::StepLimit` if and only if the step counter reached the
budget; and a budget at most the initial step counter yields `StepLimit`
with zero rules applied and an unchanged configuration. -/
theorem c1_step_accounting (conf : Configuration) (limit : Nat) :
    (run conf limit).1.sim_step = conf.sim_step + runSteps conf limit ∧
    ((run conf limit).2 = .StepLimit ↔ limit ≤ (run conf limit).1.sim_step) ∧
    (limit ≤ conf.sim_step →
      run conf limit = (conf, .StepLimit) ∧ runSteps conf limit = 0) := by
  induction conf, limit using run.induct with
  | case1 conf limit hlt e herr =>
      rw [run.eq_def, runSteps.eq_def]
      simp only [if_pos hlt, herr]
      have hne : e ≠ .StepLimit := by
        rcases applyRule_error_code herr with h | h <;> simp [h]
      refine ⟨by omega, ⟨fun h => absurd h hne, fun h => absurd h (by omega)⟩,
        fun h => absurd h (by omega)⟩
  | case2 conf limit hlt c hok ih =>
      rw [run.eq_def, runSteps.eq_def]
      simp only [if_pos hlt, hok]
      obtain ⟨ih1, ih2, _⟩ := ih
      refine ⟨?_, ih2, fun h => absurd h (by omega)⟩
      rw [ih1]
      simp
      omega
  | case3 conf limit hge =>
      rw [run.eq_def, runSteps.eq_def]
      simp only [if_neg hge]
      refine ⟨by omega, ⟨fun _ => by omega, fun _ => by trivial⟩,
        fun _ => ⟨by trivial, by trivial⟩⟩

/-- Witness for `c1_step_accounting`: the canonical start state with a
zero budget stops immediately with `StepLimit` and zero rules applied. -/
theorem c1_step_accounting_witness :
    run Configuration.new 0 = (Configuration.new, .StepLimit) ∧
    runSteps Configuration.new 0 = 0 :=
  (c1_step_accounting Configuration.new 0).2.2 (by decide)

/-- C3: when `run` returns `UnknownTransition` or `Unreachable`, the
returned configuration is exactly the state reached after some number of
fully applied engine steps (nothing half-applied), and the rule table
fails on that very state with exactly the returned code; in particular a
configuration whose head-adjacent pattern matches no rule, run with
budget `step_count + 1`, returns `UnknownTransition` with the
configuration completely unchanged. -/
theorem c3_failfast (conf : Configuration) (limit : Nat) :
    (((run conf limit).2 = .UnknownTransition ∨ (run conf limit).2 = .Unreachable) →
      applyRule (run conf limit).1 = .error (run conf limit).2 ∧
      ∃ n, stepN conf n = some (run conf limit).1) ∧
    (applyRule conf = .error .UnknownTransition →
      run conf (conf.sim_step + 1) = (conf, .UnknownTransition)) := by
  constructor
  · induction conf, limit using run.induct with
    | case1 conf limit hlt e herr =>
        rw [run.eq_def]
        simp only [if_pos hlt, herr]
        intro _
        exact ⟨trivial, 0, rfl⟩
    | case2 conf limit hlt c hok ih =>
        rw [run.eq_def]
        simp only [if_pos hlt, hok]
        intro h
        obtain ⟨h1, n, hn⟩ := ih h
        refine ⟨h1, n + 1, ?_⟩
        simp only [stepN, hok]
        exact hn
    | case3 conf limit hge =>
        rw [run.eq_def]
        simp only [if_neg hge]
        intro h
        rcases h with h | h <;> exact absurd h (by simp)
  · intro h
    rw [run.eq_def]
    simp only [Nat.lt_succ_self, if_pos, h]

/-- Witness for `c3_failfast`: the empty configuration scanning right
matches no rule and is returned unchanged. -/
theorem c3_failfast_witness :
    run ⟨[], [], .Right, 0⟩ 1 = (⟨[], [], .Right, 0⟩, .UnknownTransition) :=
  (c3_failfast ⟨[], [], .Right, 0⟩ 1).2 rfl

/-- C5: resumability — running to budget `B1 < B` and then, from the
resulting state, running to budget `B`, yields exactly the configuration
and result code of a single call with budget `B` on the original state. -/
theorem c5_resumability (conf : Configuration) (B1 B : Nat) (h : B1 < B) :
    run (run conf B1).1 B = run conf B := by
  have hle : B1 ≤ B := Nat.le_of_lt h
  clear h
  induction conf, B1 using run.induct with
  | case1 conf B1 hlt e herr =>
      rw [run.eq_def conf B1]
      simp only [if_pos hlt, herr]
  | case2 conf B1 hlt c hok ih =>
      rw [run.eq_def conf B1]
      simp only [if_pos hlt, hok]
      rw [ih hle]
      rw [run.eq_def conf B, if_pos (by omega), hok]
  | case3 conf B1 hge =>
      rw [run.eq_def conf B1]
      simp only [if_neg hge]

/-- Witness for `c5_resumability` at the canonical start state with
budgets 1 and 2. -/
theorem c5_resumability_witness :
    run (run Configuration.new 1).1 2 = run Configuration.new 2 :=
  c5_resumability Configuration.new 1 2 (by decide)

end BBC

namespace BBC

/-- C6 counterexample: the claim states `Run(1)` is pushed exactly when
the incremented counter was 0 or 2; but incrementing `C(4)` (a counter
the parser can produce, outside the documented domain) also pushes
`Run(1)`, refuting "exactly". -/
theorem c6_counterexample :
    applyRule ⟨[.C 4], [], .Left, 0⟩ = .ok ⟨[.X 1, .C 5], [], .Right, 0⟩ ∧
    ¬(4 = 0 ∨ 4 = 2) := ⟨rfl, by decide⟩

/-- C6 amended: for direction `Left` with `Counter(c)` head-adjacent on
the left tape and `c ≠ 3`, one engine step replaces it by
`Counter((c+1) mod 256)` (the `mod` is the `u8` wrap-around; for every
counter the parser can produce this is `c + 1`), sets the direction to
`Right`, and pushes `Run(1)` exactly when the new counter differs from
2 — i.e. exactly when `c ≠ 1`; on the spec's counter domain {0,1,2}
that is exactly `c = 0` or `c = 2`. -/
theorem c6_amended (c : Nat) (l r : List Item) (s : Nat)
    (h3 : c ≠ 3) (h256 : c < 256) :
    applyRule ⟨.C c :: l, r, .Left, s⟩ =
      .ok ⟨(if (c + 1) % 256 ≠ 2
              then .X 1 :: .C ((c + 1) % 256) :: l
              else .C ((c + 1) % 256) :: l), r, .Right, s⟩ ∧
    ((c + 1) % 256 = 2 ↔ c = 1) := by
  refine ⟨?_, by omega⟩
  unfold applyRule stepLeft
  split
  all_goals simp_all

/-- Witness for `c6_amended` at `c = 0`: `0 <` becomes `1x >`. -/
theorem c6_amended_witness :
    applyRule ⟨[.C 0], [], .Left, 0⟩ = .ok ⟨[.X 1, .C 1], [], .Right, 0⟩ := by
  have h := (c6_amended 0 [] [] 0 (by decide) (by decide)).1
  simpa using h

end BBC

namespace BBC

/-- Helper: is an item a `Run` (`Item::X`)? -/
def isX : Item → Bool
  | .X _ => true
  | _ => false

/-- Helper: does a tape have a `Run` head-adjacent? -/
def headX : List Item → Bool
  | [] => false
  | i :: _ => isX i

/-- A tape contains no two adjacent `Run` items (spec's canonical-merge
invariant, §3). -/
def noAdjX : List Item → Bool
  | [] => true
  | [_] => true
  | a :: b :: t => (!(isX a && isX b)) && noAdjX (b :: t)

theorem noAdjX_cons (a : Item) (l : List Item) :
    noAdjX (a :: l) = ((!(isX a && headX l)) && noAdjX l) := by
  cases l <;> simp [noAdjX, headX, isX]

/-- `push_or_merge_x` preserves the no-adjacent-runs invariant: this is
the "any push of a Run merges" half of the claim. -/
theorem noAdjX_push_or_merge {l : List Item} (h : noAdjX l = true) (n : Nat) :
    noAdjX (push_or_merge_x l n) = true := by
  unfold push_or_merge_x
  split
  · simp_all [noAdjX_cons, isX]
  · rename_i hne
    cases l with
    | nil => simp [noAdjX]
    | cons a t =>
      have ha : isX a = false := by
        cases a <;> simp_all [isX]
      simp_all [noAdjX_cons, headX, isX]

theorem noAdjX_block2 (lt : List Item) :
    noAdjX (block2Expansion.reverse ++ lt) = noAdjX lt := by
  simp [block2Expansion, noAdjX_cons, headX, isX]

/-- The one rule that moves an existing `Run` item with a plain push: the
pass-through arm `(x|D|P|3) <` with a `Run` head-adjacent on the left. -/
def movesRun (conf : Configuration) : Bool :=
  match conf.dir, conf.ltape with
  | .Left, .X _ :: _ => true
  | _, _ => false

/-- C4 counterexample: the configuration `x < x` has no two adjacent
`Run` items on either tape, yet one successfully applied engine step (the
pass-through rule) leaves the right tape with two adjacent `Run` items,
refuting the claimed invariant. -/
theorem c4_counterexample :
    noAdjX [Item.X 1] = true ∧
    applyRule ⟨[.X 1], [.X 1], .Left, 0⟩ = .ok ⟨[], [.X 1, .X 1], .Left, 0⟩ ∧
    noAdjX [Item.X 1, Item.X 1] = false := ⟨rfl, rfl, rfl⟩

set_option maxHeartbeats 1000000 in
/-- C4 amended: starting from a configuration with no two adjacent `Run`
items on either tape, a single successfully applied engine step leaves
the LEFT tape free of adjacent `Run` items, and leaves the RIGHT tape
free of adjacent `Run` items unless the applied rule was the pass-through
arm moving a `Run` item from the left tape onto the right tape (the one
push of a `Run` that does not go through `push_or_merge_x`). -/
theorem c4_amended (conf conf' : Configuration)
    (hok : applyRule conf = .ok conf')
    (hl : noAdjX conf.ltape = true) (hr : noAdjX conf.rtape = true) :
    noAdjX conf'.ltape = true ∧
    (movesRun conf = false → noAdjX conf'.rtape = true) := by
  obtain ⟨lt, rt, d, s⟩ := conf
  simp only at hl hr
  cases d
  · rw [show applyRule ⟨lt, rt, .Left, s⟩ = stepLeft ⟨lt, rt, .Left, s⟩ from rfl] at hok
    unfold stepLeft at hok
    split at hok <;>
      first
        | exact Except.noConfusion hok
        | (injection hok with hok; subst hok;
           (try simp_all [noAdjX_cons, headX, isX, movesRun, noAdjX_push_or_merge,
              noAdjX_block2, noAdjX]);
           all_goals (try (split_ifs <;>
             simp_all [noAdjX_cons, headX, isX]));
           all_goals (try (split <;>
             simp_all [noAdjX_cons, headX, isX]));
           all_goals (try (split <;>
             simp_all [noAdjX_cons, headX, isX])))
  · rw [show applyRule ⟨lt, rt, .Right, s⟩ = stepRight ⟨lt, rt, .Right, s⟩ from rfl] at hok
    unfold stepRight at hok
    split at hok <;>
      first
        | exact Except.noConfusion hok
        | (injection hok with hok; subst hok;
           (try simp_all [noAdjX_cons, headX, isX, movesRun, noAdjX_push_or_merge,
              noAdjX_block2, noAdjX]);
           all_goals (try (split_ifs <;>
             simp_all [noAdjX_cons, headX, isX]));
           all_goals (try (split <;>
             simp_all [noAdjX_cons, headX, isX]));
           all_goals (try (split <;>
             simp_all [noAdjX_cons, headX, isX])))
        | (split at hok <;>
            first
              | exact Except.noConfusion hok
              | (injection hok with hok; subst hok;
                 (try simp_all [noAdjX_cons, headX, isX, movesRun, noAdjX_push_or_merge,
                    noAdjX_block2, noAdjX]);
                 all_goals (try (split_ifs <;>
                   simp_all [noAdjX_cons, headX, isX]));
                 all_goals (try (split <;>
                   simp_all [noAdjX_cons, headX, isX]));
                 all_goals (try (split <;>
                   simp_all [noAdjX_cons, headX, isX]))))
    -- remaining goal: the `> x` arm with its `test_b` compaction guard
    rename_i x0 e0 r0 heq0
    have hp := noAdjX_push_or_merge hl 30826
    split_ifs with he
    · split
      · rename_i l10 heq2
        rw [heq2] at hp
        simp [noAdjX_cons, headX, isX] at hp
        split <;> simp_all [noAdjX_cons, headX, isX]
      · exact hp
    · exact noAdjX_push_or_merge hl _

/-- Witness for `c4_amended`: the `> D` rule applied to `D > D`. -/
theorem c4_amended_witness :
    noAdjX [Item.D, Item.D] = true ∧
    (movesRun ⟨[.D], [.D], .Right, 0⟩ = false → noAdjX ([] : List Item) = true) :=
  c4_amended ⟨[.D], [.D], .Right, 0⟩ ⟨[.D, .D], [], .Right, 0⟩ rfl rfl rfl

end BBC


namespace BBC
end BBC

namespace BBC
end BBC

namespace BBC

/-- Decimal digits of `n`, most significant first (the digit stream that
Rust's `Display` for unsigned integers produces). -/
def natDigits (n : Nat) : List Nat :=
  if n < 10 then [n] else natDigits (n / 10) ++ [n % 10]
termination_by n
decreasing_by exact Nat.div_lt_self (by omega) (by omega)

/-- The character of a decimal digit. -/
def digitCh (d : Nat) : Char :=
  if d = 0 then '0' else if d = 1 then '1' else if d = 2 then '2'
  else if d = 3 then '3' else if d = 4 then '4' else if d = 5 then '5'
  else if d = 6 then '6' else if d = 7 then '7' else if d = 8 then '8'
  else '9'

/-- Decimal rendering of `n` as characters. -/
def natChars (n : Nat) : List Char := (natDigits n).map digitCh

/-- Is `c` in `'0'..='9'` (the Rust range pattern)? -/
def isDigitCh (c : Char) : Bool := '0' ≤ c && c ≤ '9'

/-- Numeric value of a digit stream; `none` mirrors the `Err` of Rust's
`str::parse` on an empty or non-digit string.  (Rust also accepts a
leading `+`, which no rendered number contains.) -/
def chsToNat (l : List Char) : Option Nat :=
  if l ≠ [] ∧ l.all isDigitCh then
    some (l.foldl (fun a c => a * 10 + (c.toNat - 48)) 0)
  else none

/-- `str::parse` into a bounded unsigned integer type: the value must fit
(`bound` is `2^64` for `usize`, `2^16` for `u16`). -/
def parseNatLt (bound : Nat) (l : List Char) : Option Nat :=
  match chsToNat l with
  | some n => if n < bound then some n else none
  | none => none

/-- Whitespace, as split on by Rust's `split_whitespace`. -/
def isWSCh (c : Char) : Bool := c.isWhitespace

/-- Accumulator-passing worker for `wsSplit`. -/
def wsSplitGo (acc : List Char) : List Char → List (List Char)
  | [] => if acc.isEmpty then [] else [acc.reverse]
  | c :: cs =>
    if isWSCh c then
      (if acc.isEmpty then wsSplitGo [] cs else acc.reverse :: wsSplitGo [] cs)
    else wsSplitGo (c :: acc) cs

/-- `split_whitespace`: maximal runs of non-whitespace characters. -/
def wsSplit (l : List Char) : List (List Char) := wsSplitGo [] l

/-- `fmt_symbol` from `impl fmt::Display for Configuration`, with the
purely cosmetic owo-colors decoration (italic/bold/color escape
sequences) stripped — exactly what the repository's own `parse_conf` test
compares after `strip_ansi_escapes` (the `exp > 1_000_000_000` branch
differs only in color, so both branches render ` x^exp `). -/
def fmtItem : Item → List Char
  | .D => ['D']
  | .P => ['P']
  | .C c => natChars c
  | .X e => ' ' :: 'x' :: '^' :: (natChars e ++ [' '])
  | .L r => ' ' :: 'L' :: '(' :: (natChars r ++ [')', ' '])
  | .E b e => ' ' :: Char.ofNat ((b + 97) % 256) :: '^' :: (natChars e ++ [' '])
  | .Unreachable => [' ', '!', ' ']

/-- The head marker character. -/
def dirCh : Direction → Char
  | .Left => '<'
  | .Right => '>'

/-- `impl fmt::Display for Configuration` (decoration stripped): the step
counter with `":  "`, the left tape in Vec order (list reversed), the
marker padded with spaces, then the right tape in reverse Vec order (list
order). -/
def renderChars (conf : Configuration) : List Char :=
  natChars conf.sim_step ++ [':', ' ', ' ']
    ++ (conf.ltape.reverse.map fmtItem).flatten
    ++ [' ', dirCh conf.dir, ' ']
    ++ (conf.rtape.map fmtItem).flatten

/-- The per-character mapping of `raw_parse`'s fallback literal-token arm
(`'D' | 'P' | '0'..='9' | 'x' | '!'`); `none` is the `unreachable!()`
panic. -/
def litChar (c : Char) : Option Item :=
  if c = 'D' then some .D
  else if c = 'P' then some .P
  else if isDigitCh c then some (.C (c.toNat - 48))
  else if c = 'x' then some (.X 1)
  else if c = '!' then some .Unreachable
  else none

/-- `token.chars().map(litChar)` as fed to `tape.extend`: all characters
must be in the literal alphabet, else the token is a panic (`none`). -/
def litChars : List Char → Option (List Item)
  | [] => some []
  | c :: t =>
    match litChar c, litChars t with
    | some i, some is => some (i :: is)
    | _, _ => none

/-- `str::split_once`: split at the first occurrence of `c`. -/
def splitFirst (c : Char) : List Char → Option (List Char × List Char)
  | [] => none
  | a :: t =>
    if a = c then some ([], t)
    else
      match splitFirst c t with
      | some (x, y) => some (a :: x, y)
      | none => none

/-- The mutable state of `raw_parse`'s token loop: the configuration
being built plus `active_tape_dir` (`seenHead` is `active_tape_dir ==
Right`, i.e. the head marker has been consumed and tokens now target the
right tape). -/
structure PState where
  ltape : List Item
  rtape : List Item
  dir : Direction
  sim_step : Nat
  seenHead : Bool
deriving DecidableEq, Repr

/-- `tape.push`/`tape.extend` on the active tape: items are pushed in
encounter order (reversed prepend under the head-first list convention). -/
def pushTape (st : PState) (items : List Item) : PState :=
  if st.seenHead then { st with rtape := items.reverse ++ st.rtape }
  else { st with ltape := items.reverse ++ st.ltape }

/-- One iteration of `raw_parse`'s token loop, checks in source order:
a token ending in `:` sets the step counter (panic on a bad number is
`none`); `<` / `>` asserts the marker was not yet seen, switches the
active tape and sets the direction; a token containing `^` is a run
(`x^N`) or block (`letter^N`, id `letter as u8 - b'a'` with `u8`
wrap-around); `L(`-headed tokens are reduced codes (the closing `)` is
stripped by position, not checked); anything else maps per character. -/
def procToken (st : PState) (t : List Char) : Option PState :=
  if t.getLast? = some ':' then
    match parseNatLt (2 ^ 64) t.dropLast with
    | some n => some { st with sim_step := n }
    | none => none
  else if t = ['<'] then
    if st.seenHead then none
    else some { st with seenHead := true, dir := .Left }
  else if t = ['>'] then
    if st.seenHead then none
    else some { st with seenHead := true, dir := .Right }
  else
    match splitFirst '^' t with
    | some (blk, exps) =>
      if blk = ['x'] then
        match parseNatLt (2 ^ 64) exps with
        | some n => some (pushTape st [.X n])
        | none => none
      else
        match blk with
        | [] => none
        | c :: _ =>
          match parseNatLt (2 ^ 64) exps with
          | some n => some (pushTape st [.E ((c.toNat % 256 + 159) % 256) n])
          | none => none
    | none =>
      if t.take 2 = ['L', '('] then
        match t.drop 2 with
        | [] => none
        | encoded => match parseNatLt (2 ^ 16) encoded.dropLast with
          | some n => some (pushTape st [.L n])
          | none => none
      else
        match litChars t with
        | some items => some (pushTape st items)
        | none => none

/-- `raw_parse`: fold the token loop over the whitespace-split input and
return the built configuration together with whether the head marker was
seen (`active_tape_dir == Right`). -/
def rawParse (s : List Char) : Option (Configuration × Bool) :=
  match (wsSplit s).foldlM procToken ⟨[], [], .Right, 0, false⟩ with
  | some st => some (⟨st.ltape, st.rtape, st.dir, st.sim_step⟩, st.seenHead)
  | none => none

/-- `fn parse`: a one-sided literal tape — asserts no head marker was
seen and returns the left tape. -/
def parseTape (s : List Char) : Option (List Item) :=
  match rawParse s with
  | some (conf, false) => some conf.ltape
  | _ => none

/-- `impl FromStr for Configuration`: asserts the head marker was seen
and reverses the right tape into head-first orientation. -/
def confFromStr (s : List Char) : Option Configuration :=
  match rawParse s with
  | some (conf, true) => some { conf with rtape := conf.rtape.reverse }
  | _ => none

/-- String-level wrapper of `parseTape`. -/
def parseTapeStr (s : String) : Option (List Item) := parseTape s.toList

/-- String-level wrapper of `confFromStr`. -/
def confOfStr (s : String) : Option Configuration := confFromStr s.toList

/-- String-level wrapper of `renderChars`. -/
def renderStr (conf : Configuration) : String := ⟨renderChars conf⟩

end BBC

namespace BBC

/-- C9: reversal symmetry — parsing `L(69) x^10344 PD x^7640 32x!` as a
one-sided literal tape and reversing the resulting item sequence yields
exactly the item sequence obtained by parsing `! x23 x^7640 DP x^10344
L(69)` (the `tests::parse_block` regression; reversal of the stored Vec
is reversal of the head-first list, so the identity is
representation-independent). -/
theorem c9_reversal :
    parseTapeStr "L(69) x^10344 PD x^7640 32x!" =
      some [.Unreachable, .X 1, .C 2, .C 3, .X 7640, .D, .P, .X 10344, .L 69] ∧
    parseTapeStr "! x23 x^7640 DP x^10344 L(69)" =
      some [.L 69, .X 10344, .P, .D, .X 7640, .C 3, .C 2, .X 1, .Unreachable] ∧
    [Item.Unreachable, .X 1, .C 2, .C 3, .X 7640, .D, .P, .X 10344, .L 69].reverse =
      [Item.L 69, .X 10344, .P, .D, .X 7640, .C 3, .C 2, .X 1, .Unreachable] :=
  ⟨by decide, by decide, by decide⟩

/-- C10: the parser's literal-token arm maps every decimal digit
character to `Counter(digit)`; digits 4–9 are accepted (producing
counters outside the documented {0,1,2,3} domain) rather than rejected —
witnessed per digit on `litChar`, on a full literal token, and on a full
configuration parse. -/
theorem c10_digits :
    litChar '0' = some (.C 0) ∧ litChar '1' = some (.C 1) ∧
    litChar '2' = some (.C 2) ∧ litChar '3' = some (.C 3) ∧
    litChar '4' = some (.C 4) ∧ litChar '5' = some (.C 5) ∧
    litChar '6' = some (.C 6) ∧ litChar '7' = some (.C 7) ∧
    litChar '8' = some (.C 8) ∧ litChar '9' = some (.C 9) ∧
    parseTapeStr "456789" = some [.C 9, .C 8, .C 7, .C 6, .C 5, .C 4] ∧
    confOfStr "4 >" = some ⟨[.C 4], [], .Right, 0⟩ ∧
    ¬(4 = 0 ∨ 4 = 1 ∨ 4 = 2 ∨ 4 = 3) := by decide

end BBC

namespace BBC

theorem natDigits_all_lt (n : Nat) : ∀ d ∈ natDigits n, d < 10 := by
  induction n using natDigits.induct with
  | case1 n h =>
      rw [natDigits, if_pos h]
      intro d hd
      simp at hd
      omega
  | case2 n h ih =>
      rw [natDigits, if_neg h]
      intro d hd
      rcases List.mem_append.1 hd with hd | hd
      · exact ih d hd
      · simp at hd
        omega

theorem natDigits_ne_nil (n : Nat) : natDigits n ≠ [] := by
  rw [natDigits]
  split
  · simp
  · simp [natDigits_ne_nil (n / 10)]
termination_by n
decreasing_by exact Nat.div_lt_self (by omega) (by omega)

theorem natDigits_foldl (n : Nat) : ∀ a,
    (natDigits n).foldl (fun a d => a * 10 + d) a
      = a * 10 ^ (natDigits n).length + n := by
  induction n using natDigits.induct with
  | case1 n h =>
      intro a
      rw [natDigits, if_pos h]
      simp
  | case2 n h ih =>
      intro a
      rw [natDigits, if_neg h]
      rw [List.foldl_append, ih a]
      simp [pow_succ]
      have h1 : a * 10 ^ (natDigits (n / 10)).length * 10
          = a * (10 ^ (natDigits (n / 10)).length * 10) := by ring
      omega

theorem digit_facts (d : Nat) (h : d < 10) :
    isDigitCh (digitCh d) = true ∧ (digitCh d).toNat - 48 = d ∧
    isWSCh (digitCh d) = false ∧ digitCh d ≠ ':' ∧ digitCh d ≠ '<' ∧
    digitCh d ≠ '>' ∧ digitCh d ≠ '^' ∧ digitCh d ≠ 'L' ∧
    digitCh d ≠ 'x' ∧ digitCh d ≠ '(' := by
  interval_cases d <;> decide

theorem natChars_all_digit (n : Nat) : (natChars n).all isDigitCh = true := by
  rw [List.all_eq_true]
  intro c hc
  rcases List.mem_map.1 hc with ⟨d, hd, rfl⟩
  exact (digit_facts d (natDigits_all_lt n d hd)).1

theorem natChars_ne_nil (n : Nat) : natChars n ≠ [] := by
  simp [natChars, natDigits_ne_nil]

theorem chsToNat_natChars (n : Nat) : chsToNat (natChars n) = some n := by
  rw [chsToNat, if_pos ⟨natChars_ne_nil n, natChars_all_digit n⟩]
  congr 1
  have key : ∀ (l : List Nat), (∀ d ∈ l, d < 10) → ∀ a,
      (l.map digitCh).foldl (fun a c => a * 10 + (c.toNat - 48)) a
        = l.foldl (fun a d => a * 10 + d) a := by
    intro l
    induction l with
    | nil => intro _ a; rfl
    | cons d t ih =>
        intro hall a
        simp only [List.map_cons, List.foldl_cons]
        rw [(digit_facts d (hall d (by simp))).2.1]
        exact ih (fun x hx => hall x (by simp [hx])) _
  rw [natChars, key (natDigits n) (natDigits_all_lt n) 0, natDigits_foldl n 0]
  simp

theorem parseNatLt_natChars (b n : Nat) (h : n < b) :
    parseNatLt b (natChars n) = some n := by
  rw [parseNatLt, chsToNat_natChars]
  simp [h]

end BBC

namespace BBC

theorem wsSplitGo_nonws {t : List Char} (h : ∀ c ∈ t, isWSCh c = false) :
    ∀ (acc r : List Char), wsSplitGo acc (t ++ r) = wsSplitGo (t.reverse ++ acc) r := by
  induction t with
  | nil => intro acc r; simp
  | cons c t ih =>
      intro acc r
      rw [List.cons_append, wsSplitGo, if_neg (by simp [h c (by simp)])]
      rw [ih (fun x hx => h x (by simp [hx])) (c :: acc) r]
      simp

theorem wsSplitGo_space (acc r : List Char) :
    wsSplitGo acc (' ' :: r)
      = if acc = [] then wsSplitGo [] r else acc.reverse :: wsSplitGo [] r := by
  rw [wsSplitGo, if_pos (by decide)]
  rcases acc with _ | ⟨a, acc⟩ <;> simp

theorem wsSplitGo_nil (acc : List Char) :
    wsSplitGo acc [] = if acc = [] then [] else [acc.reverse] := by
  rw [wsSplitGo]
  rcases acc with _ | ⟨a, acc⟩ <;> simp

/-- Bare items: `D`, `P`, `Counter` — rendered with no surrounding
spaces, so that adjacent ones concatenate into a single token. -/
def bareItem : Item → Bool
  | .D => true
  | .P => true
  | .C _ => true
  | _ => false

/-- The block-id letter of a `Block` item (`(block + b'a') as char`). -/
def blockCh (b : Nat) : Char := Char.ofNat ((b + 97) % 256)

/-- The token of a non-bare item, without the surrounding spaces. -/
def padCore : Item → List Char
  | .X e => 'x' :: '^' :: natChars e
  | .L r => 'L' :: '(' :: (natChars r ++ [')'])
  | .E b e => blockCh b :: '^' :: natChars e
  | _ => ['!']

theorem fmtItem_pad (i : Item) (h : bareItem i = false) :
    fmtItem i = ' ' :: (padCore i ++ [' ']) := by
  cases i <;> simp_all [fmtItem, padCore, bareItem, blockCh]

/-- Well-formed items: round-trippable through the textual codec. -/
def goodItem : Item → Bool
  | .C c => c ≤ 9
  | .X e => e < 2 ^ 64
  | .L r => r < 2 ^ 16
  | .E b e => b ≤ 22 && e < 2 ^ 64
  | _ => true

/-- Well-formed configurations: all items well-formed and the step
counter representable. -/
def goodConf (conf : Configuration) : Bool :=
  conf.ltape.all goodItem && conf.rtape.all goodItem
    && conf.sim_step < 2 ^ 64

theorem blockCh_facts (b : Nat) (h : b ≤ 22) :
    isWSCh (blockCh b) = false ∧ blockCh b ≠ '^' ∧ blockCh b ≠ 'x' ∧
    blockCh b ≠ '<' ∧ blockCh b ≠ '>' ∧
    ((blockCh b).toNat % 256 + 159) % 256 = b := by
  interval_cases b <;> decide

theorem padCore_ne_nil (i : Item) : padCore i ≠ [] := by
  cases i <;> simp [padCore]

theorem padCore_nonws (i : Item) (hg : goodItem i = true) :
    ∀ c ∈ padCore i, isWSCh c = false := by
  have hd : ∀ n, ∀ c ∈ natChars n, isWSCh c = false := by
    intro n c hc
    rcases List.mem_map.1 hc with ⟨d, hd, rfl⟩
    exact (digit_facts d (natDigits_all_lt n d hd)).2.2.1
  cases i with
  | X e =>
      intro c hc
      simp only [padCore, List.mem_cons] at hc
      rcases hc with rfl | rfl | hc
      · decide
      · decide
      · exact hd e c hc
  | L r =>
      intro c hc
      simp only [padCore, List.mem_cons, List.mem_append,
        List.mem_singleton] at hc
      rcases hc with rfl | rfl | hc | rfl | h0
      · decide
      · decide
      · exact hd r c hc
      · decide
      · cases h0
  | E b e =>
      intro c hc
      simp only [padCore, List.mem_cons] at hc
      rcases hc with rfl | rfl | hc
      · simp [goodItem] at hg
        exact (blockCh_facts b hg.1).1
      · decide
      · exact hd e c hc
  | D =>
      intro c hc
      simp only [padCore, List.mem_singleton] at hc
      subst hc
      decide
  | P =>
      intro c hc
      simp only [padCore, List.mem_singleton] at hc
      subst hc
      decide
  | C c2 =>
      intro c hc
      simp only [padCore, List.mem_singleton] at hc
      subst hc
      decide
  | Unreachable =>
      intro c hc
      simp only [padCore, List.mem_singleton] at hc
      subst hc
      decide

end BBC

namespace BBC

/-- Characters that make up bare-item renderings. -/
def isBareCh (c : Char) : Bool := c = 'D' || c = 'P' || isDigitCh c

theorem bare_fmt_chars (i : Item) (hb : bareItem i = true) :
    fmtItem i ≠ [] ∧ ∀ c ∈ fmtItem i, isBareCh c = true := by
  cases i with
  | D => exact ⟨by decide, by decide⟩
  | P => exact ⟨by decide, by decide⟩
  | C c =>
      refine ⟨by simp [fmtItem, natChars_ne_nil], ?_⟩
      intro ch hch
      simp only [fmtItem] at hch
      rcases List.mem_map.1 hch with ⟨d, hd, rfl⟩
      have := (digit_facts d (natDigits_all_lt c d hd)).1
      simp [isBareCh, this]
  | X e => simp [bareItem] at hb
  | L r => simp [bareItem] at hb
  | E b e => simp [bareItem] at hb
  | Unreachable => simp [bareItem] at hb

theorem isBareCh_nonws {c : Char} (h : isBareCh c = true) : isWSCh c = false := by
  by_contra hw
  simp only [Bool.not_eq_false, isWSCh, Char.isWhitespace, Bool.or_eq_true,
    decide_eq_true_eq] at hw
  rcases hw with ((rfl | rfl) | rfl) | rfl <;> revert h <;> decide

theorem isBareCh_ne {c : Char} (h : isBareCh c = true) :
    c ≠ ':' ∧ c ≠ '<' ∧ c ≠ '>' ∧ c ≠ '^' ∧ c ≠ 'L' := by
  refine ⟨?_, ?_, ?_, ?_, ?_⟩ <;> (intro hc; rw [hc] at h; exact absurd h (by decide))

theorem lenDropWhileLe (p : Item → Bool) (l : List Item) :
    (l.dropWhile p).length ≤ l.length := by
  induction l with
  | nil => simp
  | cons a t ih =>
      rw [List.dropWhile]
      split
      · exact le_trans ih (by simp)
      · simp

/-- The whitespace-delimited tokens that rendering a tape produces: runs
of adjacent bare items merge into one token; each non-bare item is its
own token. -/
def tapeTokens (l : List Item) : List (List Char) :=
  match l with
  | [] => []
  | i :: t =>
    if hb : bareItem i then
      (((i :: t).takeWhile bareItem).map fmtItem).flatten
        :: tapeTokens ((i :: t).dropWhile bareItem)
    else padCore i :: tapeTokens t
termination_by l.length
decreasing_by
  · simp only [List.dropWhile_cons, hb, if_true, List.length_cons]
    exact Nat.lt_succ_of_le (lenDropWhileLe _ _)
  · simp

end BBC

namespace BBC

theorem wsSplitGo_sep {Y : List Char} (acc : List Char) (hacc : acc ≠ [])
    (hy : Y = [] ∨ ∃ y', Y = ' ' :: y') :
    wsSplitGo acc Y = acc.reverse :: wsSplitGo [] Y := by
  rcases hy with rfl | ⟨y', rfl⟩
  · rw [wsSplitGo_nil, wsSplitGo_nil, if_neg hacc]
    simp
  · rw [wsSplitGo_space, wsSplitGo_space, if_neg hacc, if_pos rfl]

theorem mem_takeWhile (p : Item → Bool) :
    ∀ {l : List Item} {x : Item}, x ∈ l.takeWhile p → p x = true ∧ x ∈ l := by
  intro l
  induction l with
  | nil => intro x hx; simp at hx
  | cons a t ih =>
      intro x hx
      rw [List.takeWhile] at hx
      split at hx
      · rcases List.mem_cons.1 hx with rfl | hx
        · exact ⟨by assumption, by simp⟩
        · exact ⟨(ih hx).1, by simp [(ih hx).2]⟩
      · simp at hx

theorem dropWhile_head (p : Item → Bool) :
    ∀ {l : List Item} {j : Item} {t : List Item},
      l.dropWhile p = j :: t → p j = false := by
  intro l
  induction l with
  | nil => intro j t h; simp at h
  | cons a t2 ih =>
      intro j t h
      rw [List.dropWhile] at h
      split at h
      · exact ih h
      · injection h with h1 h2
        subst h1
        simp_all

theorem dropWhile_mem (p : Item → Bool) :
    ∀ {l : List Item} {x : Item}, x ∈ l.dropWhile p → x ∈ l := by
  intro l
  induction l with
  | nil => intro x hx; simp at hx
  | cons a t ih =>
      intro x hx
      rw [List.dropWhile] at hx
      split at hx
      · simp [ih hx]
      · exact hx

theorem wsSplit_fmtTape :
    ∀ (l : List Item) (rest : List Char), l.all goodItem = true →
      (rest = [] ∨ ∃ r', rest = ' ' :: r') →
      wsSplitGo [] ((l.map fmtItem).flatten ++ rest)
        = tapeTokens l ++ wsSplitGo [] rest := by
  intro l
  induction l using tapeTokens.induct with
  | case1 =>
      intro rest _ _
      simp [tapeTokens]
  | case2 i t hb ih =>
      intro rest hg hr
      have hrun := List.takeWhile_append_dropWhile (p := bareItem) (l := i :: t)
      have hjoin : ((i :: t).map fmtItem).flatten
          = (((i :: t).takeWhile bareItem).map fmtItem).flatten
            ++ (((i :: t).dropWhile bareItem).map fmtItem).flatten := by
        rw [← List.flatten_append, ← List.map_append, hrun]
      set run := (i :: t).takeWhile bareItem with hrdef
      set rest' := (i :: t).dropWhile bareItem with hddef
      set bareTok := (run.map fmtItem).flatten with hbdef
      have hbtchars : ∀ c ∈ bareTok, isBareCh c = true := by
        intro c hc
        rw [hbdef] at hc
        rcases List.mem_flatten.1 hc with ⟨cs, hcs, hcmem⟩
        rcases List.mem_map.1 hcs with ⟨x, hx, rfl⟩
        exact (bare_fmt_chars x (mem_takeWhile bareItem hx).1).2 c hcmem
      have hbtne : bareTok ≠ [] := by
        rw [hbdef, hrdef, List.takeWhile_cons, if_pos hb]
        simp only [List.map_cons, List.flatten_cons]
        intro hcon
        exact (bare_fmt_chars i hb).1 (List.append_eq_nil.1 hcon).1
      have hgood' : rest'.all goodItem = true := by
        rw [List.all_eq_true] at hg ⊢
        intro x hx
        exact hg x (dropWhile_mem bareItem (hddef ▸ hx))
      rw [hjoin, List.append_assoc]
      rw [wsSplitGo_nonws (t := bareTok)
        (fun c hc => isBareCh_nonws (hbtchars c hc)) [] _]
      have hsep : (rest'.map fmtItem).flatten ++ rest = []
          ∨ ∃ y', (rest'.map fmtItem).flatten ++ rest = ' ' :: y' := by
        rw [hddef]
        rcases hdd : (i :: t).dropWhile bareItem with _ | ⟨j, t'⟩
        · simpa using hr
        · have hjb : bareItem j = false := dropWhile_head bareItem hdd
          right
          rw [List.map_cons, List.flatten_cons, fmtItem_pad j hjb]
          refine ⟨(padCore j ++ [' ']) ++ ((t'.map fmtItem).flatten ++ rest), ?_⟩
          simp
      rw [wsSplitGo_sep _ (by simpa using hbtne) hsep]
      rw [ih rest hgood' hr]
      rw [tapeTokens, dif_pos hb]
      simp
  | case3 i t hb ih =>
      intro rest hg hr
      simp only [List.map_cons, List.flatten_cons]
      rw [fmtItem_pad i (by simpa using hb)]
      have hgi : goodItem i = true := by
        rw [List.all_eq_true] at hg
        exact hg i (by simp)
      have hgood' : t.all goodItem = true := by
        rw [List.all_eq_true] at hg ⊢
        intro x hx
        exact hg x (by simp [hx])
      simp only [List.cons_append, List.append_assoc, List.singleton_append]
      rw [wsSplitGo_space, if_pos rfl]
      rw [wsSplitGo_nonws (t := padCore i) (padCore_nonws i hgi) [] _]
      rw [wsSplitGo_space, if_neg (by simpa using padCore_ne_nil i)]
      simp only [List.append_nil, List.nil_append, List.reverse_reverse]
      rw [ih rest hgood' hr]
      rw [tapeTokens, dif_neg (by simpa using hb)]
      simp

end BBC

namespace BBC

theorem splitFirst_none (ch : Char) :
    ∀ {t : List Char}, (∀ c ∈ t, c ≠ ch) → splitFirst ch t = none := by
  intro t
  induction t with
  | nil => intro _; rfl
  | cons a t ih =>
      intro h
      rw [splitFirst, if_neg (h a (by simp)), ih (fun c hc => h c (by simp [hc]))]

theorem getLast?_digits_ne (l1 : List Char) (n : Nat) (c : Char)
    (hc : isDigitCh c = false) : (l1 ++ natChars n).getLast? ≠ some c := by
  rw [List.getLast?_append_of_ne_nil _ (natChars_ne_nil n)]
  rw [List.getLast?_eq_getLast_of_ne_nil (natChars_ne_nil n)]
  intro hcon
  injection hcon with hcon
  have hmem := List.getLast_mem (natChars_ne_nil n)
  rcases List.mem_map.1 hmem with ⟨d, hd, hdc⟩
  have h1 := (digit_facts d (natDigits_all_lt n d hd)).1
  rw [hdc, hcon] at h1
  rw [h1] at hc
  exact Bool.noConfusion hc

theorem procToken_stepTok (st : PState) (n : Nat) (h : n < 2 ^ 64) :
    procToken st (natChars n ++ [':']) = some { st with sim_step := n } := by
  rw [procToken, if_pos (by rw [List.getLast?_concat])]
  rw [List.dropLast_concat, parseNatLt_natChars _ _ h]

theorem procToken_marker (st : PState) (d : Direction) (h : st.seenHead = false) :
    procToken st [dirCh d]
      = some { st with seenHead := true, dir := d } := by
  cases d
  · rw [dirCh, procToken, if_neg (by decide), if_pos rfl, h]
    rfl
  · rw [dirCh, procToken, if_neg (by decide), if_neg (by decide), if_pos rfl, h]
    rfl

theorem litChars_append (l1 l2 : List Char) :
    litChars (l1 ++ l2)
      = match litChars l1, litChars l2 with
        | some a, some b => some (a ++ b)
        | _, _ => none := by
  induction l1 with
  | nil =>
      simp only [List.nil_append, litChars]
      rcases litChars l2 with _ | b <;> rfl
  | cons c t ih =>
      rcases hc : litChar c with _ | i <;> rcases ht : litChars t with _ | a <;>
        rcases hl : litChars l2 with _ | b <;>
          simp [litChars, hc, ht, hl, ih]

theorem litChars_fmtItem (i : Item) (hb : bareItem i = true)
    (hg : goodItem i = true) : litChars (fmtItem i) = some [i] := by
  cases i with
  | D => rfl
  | P => rfl
  | C c =>
      simp only [goodItem, decide_eq_true_eq] at hg
      have hc : c < 10 := by omega
      have h1 : natChars c = [digitCh c] := by
        rw [natChars, natDigits, if_pos hc]
        rfl
      show litChars (natChars c) = some [Item.C c]
      rw [h1]
      interval_cases c <;> decide
  | X e => simp [bareItem] at hb
  | L r => simp [bareItem] at hb
  | E b e => simp [bareItem] at hb
  | Unreachable => simp [bareItem] at hb

end BBC

namespace BBC

theorem litChars_run (run : List Item)
    (hb : ∀ i ∈ run, bareItem i = true) (hg : ∀ i ∈ run, goodItem i = true) :
    litChars ((run.map fmtItem).flatten) = some run := by
  induction run with
  | nil => rfl
  | cons i t ih =>
      rw [List.map_cons, List.flatten_cons, litChars_append,
        litChars_fmtItem i (hb i (by simp)) (hg i (by simp)),
        ih (fun j hj => hb j (by simp [hj])) (fun j hj => hg j (by simp [hj]))]
      rfl

theorem getLast?_bare_ne (tok : List Char) (hne : tok ≠ [])
    (hall : ∀ c ∈ tok, isBareCh c = true) (c : Char) (hc : isBareCh c = false) :
    tok.getLast? ≠ some c := by
  rw [List.getLast?_eq_getLast_of_ne_nil hne]
  intro hcon
  injection hcon with hcon
  have h1 := hall _ (List.getLast_mem hne)
  rw [hcon, hc] at h1
  exact Bool.noConfusion h1

theorem bare_ne_single (tok : List Char) (hall : ∀ c ∈ tok, isBareCh c = true)
    (c : Char) (hc : isBareCh c = false) : tok ≠ [c] := by
  intro hcon
  have h1 := hall c (by rw [hcon]; simp)
  rw [hc] at h1
  exact Bool.noConfusion h1

theorem bare_take_ne_L (tok : List Char)
    (hall : ∀ c ∈ tok, isBareCh c = true) : tok.take 2 ≠ ['L', '('] := by
  intro hcon
  have h2 : 'L' ∈ tok := List.take_subset 2 tok (by rw [hcon]; simp)
  exact absurd (hall 'L' h2) (by decide)

theorem procToken_bare (st : PState) (run : List Item) (hne : run ≠ [])
    (hb : ∀ i ∈ run, bareItem i = true) (hg : ∀ i ∈ run, goodItem i = true) :
    procToken st ((run.map fmtItem).flatten) = some (pushTape st run) := by
  have hall : ∀ c ∈ (run.map fmtItem).flatten, isBareCh c = true := by
    intro c hc
    rcases List.mem_flatten.1 hc with ⟨l, hl, hcl⟩
    rcases List.mem_map.1 hl with ⟨i, hi, rfl⟩
    exact (bare_fmt_chars i (hb i hi)).2 c hcl
  have htokne : (run.map fmtItem).flatten ≠ [] := by
    rcases run with _ | ⟨i, t⟩
    · exact absurd rfl hne
    · rw [List.map_cons, List.flatten_cons]
      intro hcon
      exact (bare_fmt_chars i (hb i (by simp))).1 (List.append_eq_nil.1 hcon).1
  rw [procToken,
    if_neg (getLast?_bare_ne _ htokne hall ':' (by decide)),
    if_neg (bare_ne_single _ hall '<' (by decide)),
    if_neg (bare_ne_single _ hall '>' (by decide)),
    splitFirst_none '^' (fun c hc => (isBareCh_ne (hall c hc)).2.2.2.1),
    if_neg (bare_take_ne_L _ hall),
    litChars_run run hb hg]

end BBC

namespace BBC

theorem procToken_pad (st : PState) (i : Item) (hnb : bareItem i = false)
    (hg : goodItem i = true) :
    procToken st (padCore i) = some (pushTape st [i]) := by
  cases i with
  | D => exact absurd hnb (by decide)
  | P => exact absurd hnb (by decide)
  | C c => exact absurd hnb (by simp [bareItem])
  | X e =>
      simp only [goodItem, decide_eq_true_eq] at hg
      show procToken st ('x' :: '^' :: natChars e) = _
      rw [procToken,
        if_neg (show ('x' :: '^' :: natChars e).getLast? ≠ some ':' from by
          have := getLast?_digits_ne ['x', '^'] e ':' (by decide)
          simpa using this),
        if_neg (by simp), if_neg (by simp)]
      rw [show splitFirst '^' ('x' :: '^' :: natChars e)
            = some (['x'], natChars e) from by
        rw [splitFirst, if_neg (by decide), splitFirst, if_pos rfl]]
      simp
      rw [show parseNatLt 18446744073709551616 (natChars e) = some e from
        parseNatLt_natChars _ _ hg]
  | L r =>
      simp only [goodItem, decide_eq_true_eq] at hg
      show procToken st ('L' :: '(' :: (natChars r ++ [')'])) = _
      rw [procToken,
        if_neg (show ('L' :: '(' :: (natChars r ++ [')'])).getLast? ≠ some ':' from by
          rw [show 'L' :: '(' :: (natChars r ++ [')'])
                = ('L' :: '(' :: natChars r) ++ [')'] from by simp,
            List.getLast?_concat]
          intro hcon
          injection hcon with hcon
          exact absurd hcon (by decide)),
        if_neg (by simp), if_neg (by simp)]
      rw [splitFirst_none '^' (by
        intro c hc
        simp only [List.mem_cons, List.mem_append] at hc
        rcases hc with rfl | rfl | hc | hc
        · decide
        · decide
        · rcases List.mem_map.1 hc with ⟨d, hd, rfl⟩
          exact (digit_facts d (natDigits_all_lt r d hd)).2.2.2.2.2.2.1
        · rcases hc with rfl | hcon
          · decide
          · cases hcon)]
      rcases hnc : natChars r with _ | ⟨a, t⟩
      · exact absurd hnc (natChars_ne_nil r)
      · have hpl : parseNatLt (2 ^ 16) ((a :: (t ++ [')'])).dropLast)
            = some r := by
          rw [show a :: (t ++ [')']) = (a :: t) ++ [')'] from by simp,
            List.dropLast_concat, ← hnc, parseNatLt_natChars _ _ hg]
        simp
        rw [show parseNatLt 65536 ((a :: (t ++ [')'])).dropLast) = some r from hpl]
  | E b e =>
      simp only [goodItem, Bool.and_eq_true, decide_eq_true_eq] at hg
      obtain ⟨hb22, he⟩ := hg
      have hf := blockCh_facts b hb22
      show procToken st (blockCh b :: '^' :: natChars e) = _
      rw [procToken,
        if_neg (show (blockCh b :: '^' :: natChars e).getLast? ≠ some ':' from by
          have := getLast?_digits_ne [blockCh b, '^'] e ':' (by decide)
          simpa using this),
        if_neg (by simp [hf.2.2.2.1]), if_neg (by simp [hf.2.2.2.2.1])]
      rw [show splitFirst '^' (blockCh b :: '^' :: natChars e)
            = some ([blockCh b], natChars e) from by
        rw [splitFirst, if_neg hf.2.1, splitFirst, if_pos rfl]]
      simp [hf.2.2.1, hf.2.2.2.2.2]
      rw [show parseNatLt 18446744073709551616 (natChars e) = some e from
        parseNatLt_natChars _ _ he]
  | Unreachable => rfl

end BBC

namespace BBC

theorem pushTape_nil (st : PState) : pushTape st [] = st := by
  rw [pushTape]
  split <;> rfl

theorem pushTape_append (st : PState) (l1 l2 : List Item) :
    pushTape (pushTape st l1) l2 = pushTape st (l1 ++ l2) := by
  rcases h : st.seenHead with _ | _
  · simp [pushTape, h]
  · simp [pushTape, h]

theorem foldlM_procToken_append (l1 l2 : List (List Char)) (st : PState) :
    (l1 ++ l2).foldlM procToken st
      = (l1.foldlM procToken st).bind fun st2 => l2.foldlM procToken st2 := by
  induction l1 generalizing st with
  | nil =>
      rw [List.nil_append, List.foldlM_nil]
      rfl
  | cons a t ih =>
      rw [List.cons_append, List.foldlM_cons, List.foldlM_cons]
      rcases procToken st a with _ | st2
      · rfl
      · simp only [Option.bind_eq_bind, Option.some_bind]
        exact ih st2

theorem foldlM_tapeTokens (l : List Item) :
    ∀ st : PState, l.all goodItem = true →
      (tapeTokens l).foldlM procToken st = some (pushTape st l) := by
  induction l using tapeTokens.induct with
  | case1 =>
      intro st _
      rw [pushTape_nil, tapeTokens]
      rfl
  | case2 i t hb ih =>
      intro st hgood
      have hgood' : ((i :: t).dropWhile bareItem).all goodItem = true := by
        rw [List.all_eq_true] at hgood ⊢
        exact fun j hj => hgood j (dropWhile_mem bareItem hj)
      rw [tapeTokens, dif_pos hb, List.foldlM_cons,
        procToken_bare st ((i :: t).takeWhile bareItem)
          (by rw [List.takeWhile_cons_of_pos hb]; simp)
          (fun j hj => (mem_takeWhile bareItem hj).1)
          (fun j hj => by
            rw [List.all_eq_true] at hgood
            exact hgood j (mem_takeWhile bareItem hj).2)]
      simp only [Option.bind_eq_bind, Option.some_bind]
      rw [ih _ hgood', pushTape_append,
        List.takeWhile_append_dropWhile]
  | case3 i t hb ih =>
      intro st hgood
      rw [List.all_cons, Bool.and_eq_true] at hgood
      rw [tapeTokens, dif_neg hb, List.foldlM_cons,
        procToken_pad st i (by rw [Bool.eq_false_iff]; exact hb) hgood.1]
      simp only [Option.bind_eq_bind, Option.some_bind]
      rw [ih (pushTape st [i]) hgood.2, pushTape_append]
      rfl

end BBC

namespace BBC

theorem wsSplitGo_one (c : Char) (hc : isWSCh c = false) (r : List Char) :
    wsSplitGo [] (c :: r) = wsSplitGo [c] r := by
  rw [wsSplitGo, if_neg (by simp [hc])]

theorem parse_renderChars (conf : Configuration) (h : goodConf conf = true) :
    confFromStr (renderChars conf) = some conf := by
  obtain ⟨lt, rt, d, ss⟩ := conf
  simp only [goodConf, Bool.and_eq_true, decide_eq_true_eq] at h
  obtain ⟨⟨hgl, hgr⟩, hss⟩ := h
  have hgl' : lt.reverse.all goodItem = true := by simpa using hgl
  have hstepchars : ∀ c ∈ natChars ss ++ [':'], isWSCh c = false := by
    intro c hc
    rcases List.mem_append.1 hc with hc | hc
    · rcases List.mem_map.1 hc with ⟨dd, hdd, rfl⟩
      exact (digit_facts dd (natDigits_all_lt ss dd hdd)).2.2.1
    · rw [List.mem_singleton] at hc
      subst hc
      decide
  have hdird : isWSCh (dirCh d) = false := by cases d <;> decide
  have htoks : wsSplit (renderChars ⟨lt, rt, d, ss⟩)
      = (natChars ss ++ [':'])
          :: (tapeTokens lt.reverse ++ ([dirCh d] :: tapeTokens rt)) := by
    rw [wsSplit, show renderChars ⟨lt, rt, d, ss⟩
        = (natChars ss ++ [':'])
            ++ (' ' :: (' ' :: ((lt.reverse.map fmtItem).flatten
              ++ (' ' :: (dirCh d :: (' ' :: (rt.map fmtItem).flatten)))))) from by
      simp [renderChars]]
    rw [wsSplitGo_nonws hstepchars [] _]
    rw [wsSplitGo_space, if_neg (by simp), wsSplitGo_space, if_pos rfl]
    rw [wsSplit_fmtTape lt.reverse _ hgl' (Or.inr ⟨_, rfl⟩)]
    rw [wsSplitGo_space, if_pos rfl]
    rw [wsSplitGo_one (dirCh d) hdird]
    rw [wsSplitGo_space, if_neg (by simp), ← List.append_nil ((rt.map fmtItem).flatten)]
    rw [wsSplit_fmtTape rt [] hgr (Or.inl rfl)]
    rw [wsSplitGo_nil, if_pos rfl]
    simp
  have hstep : procToken ⟨[], [], .Right, 0, false⟩ (natChars ss ++ [':'])
      = some ⟨[], [], .Right, ss, false⟩ := procToken_stepTok _ _ hss
  have hpl : pushTape ⟨[], [], .Right, ss, false⟩ lt.reverse
      = ⟨lt, [], .Right, ss, false⟩ := by simp [pushTape]
  have hmark : procToken ⟨lt, [], .Right, ss, false⟩ [dirCh d]
      = some ⟨lt, [], d, ss, true⟩ := procToken_marker _ d rfl
  have hpr : pushTape (⟨lt, [], d, ss, true⟩ : PState) rt
      = ⟨lt, rt.reverse, d, ss, true⟩ := by simp [pushTape]
  have hfold : ((natChars ss ++ [':'])
        :: (tapeTokens lt.reverse ++ ([dirCh d] :: tapeTokens rt))).foldlM
          procToken (⟨[], [], .Right, 0, false⟩ : PState)
      = some ⟨lt, rt.reverse, d, ss, true⟩ := by
    rw [List.foldlM_cons, hstep]
    simp only [Option.bind_eq_bind, Option.some_bind]
    rw [foldlM_procToken_append, foldlM_tapeTokens lt.reverse _ hgl', hpl]
    simp only [Option.bind_eq_bind, Option.some_bind]
    rw [List.foldlM_cons, hmark]
    simp only [Option.bind_eq_bind, Option.some_bind]
    rw [foldlM_tapeTokens rt _ hgr, hpr]
  rw [confFromStr, rawParse, htoks, hfold]
  simp

end BBC

namespace BBC

/-- C2, counterexample to the render-after-parse direction: the valid
input `0: x <` parses successfully, but rendering the parsed
configuration writes the run back as `x^1`, so the original text is not
reproduced even after discarding all whitespace.  (Rendering also never
emits colour escapes, so decoration stripping cannot close the gap.) -/
theorem c2_counterexample :
    confOfStr "0: x <" = some ⟨[.X 1], [], .Left, 0⟩ ∧
      (renderStr ⟨[.X 1], [], .Left, 0⟩).toList.filter (fun c => !isWSCh c)
        ≠ "0: x <".toList.filter (fun c => !isWSCh c) := by
  constructor
  · decide
  · have e0 : natChars 0 = ['0'] := by
      rw [natChars, natDigits]
      decide
    have e1 : natChars 1 = ['1'] := by
      rw [natChars, natDigits]
      decide
    simp only [renderStr, renderChars, fmtItem, dirCh, e0, e1]
    decide

/-- C2 (amended): the parse-after-render direction holds — for every
well-formed configuration (counters ≤ 9, run/block exponents < 2^64,
reduced codes < 2^16, step counter < 2^64, and block ids ≤ 22 so that
blocks render as the letters `a`–`w`), parsing the rendered text yields
the original configuration.  The block-id bound is essential, not
cosmetic: block id 23 renders as the letter `x`, so a block item with
id 23 and exponent 3 renders as `x^3` and re-parses as `Run(3)`.  The
render-after-parse
direction is refuted by `c2_counterexample`: rendering normalises a
literal `x` to `x^1`, which survives whitespace normalisation and
decoration stripping. -/
theorem c2_amended :
    ∀ conf : Configuration, goodConf conf = true →
      confOfStr (renderStr conf) = some conf := by
  intro conf h
  exact parse_renderChars conf h

theorem c2_amended_witness :
    goodConf ⟨[.C 1], [.P], .Right, 0⟩ = true ∧
      confOfStr (renderStr ⟨[.C 1], [.P], .Right, 0⟩)
        = some ⟨[.C 1], [.P], .Right, 0⟩ :=
  ⟨by decide, c2_amended ⟨[.C 1], [.P], .Right, 0⟩ (by decide)⟩

end BBC
